import Mathlib

/-!
Verification of the parser core of the C-to-Python agent.

This file is a shallow embedding of three modules of the repository:

* `core/parser/dependency_mapper.py` (class `DependencyMapper`),
* `core/parser/c_preprocessor.py` (class `CPreprocessor`),
* `core/parser/symbol_table.py` (classes `Symbol`, `SymbolTable`),

together with theorems settling the frozen claims about dependency
tracking, topological ordering, macro expansion, include handling,
conditional-compilation stripping and symbol-table insertion.

Modelling conventions:

* Python `str` is modelled as `List Char` (`PyStr`); Python `dict` is an
  association list in insertion order (Python dicts preserve insertion
  order); Python `set` is a duplicate-free list in insertion order.
* `Path(p).resolve()` is modelled by an explicit parameter
  `resolve : String → String`; the real `Path.resolve` is idempotent, so
  theorems that need it take the idempotence hypothesis explicitly.
* Unbounded recursion in the source (the DFS of `get_dependency_order`,
  the recursive include expansion of `process_source`) is given a fuel
  argument so that every definition is structurally recursive and
  kernel-evaluable; the correctness lemmas show that the fuel chosen by
  the top-level entry points is never exhausted on the executions the
  claims are about.
-/

/-- Python text, modelled character by character. -/
abbrev PyStr := List Char

/-- Coercion from a Lean string literal to modelled Python text. -/
def pys (s : String) : PyStr := s.toList

/-! ## Association lists standing for Python `dict`/`defaultdict(set)` -/

/-- Read access `m.get(k, set())` of a `Dict[str, Set[str]]`: a missing key
reads as the empty set. -/
def alistGet (m : List (String × List String)) (k : String) : List String :=
  match m with
  | [] => []
  | (k', vs) :: rest => if k' = k then vs else alistGet rest k

/-- The update `m[k].add(v)` of a `defaultdict(set)`: the entry for `k` is
created on first touch, and the set is a duplicate-free list in insertion
order. -/
def alistAdd (m : List (String × List String)) (k v : String) :
    List (String × List String) :=
  match m with
  | [] => [(k, [v])]
  | (k', vs) :: rest =>
    if k' = k then (k', if v ∈ vs then vs else vs ++ [v]) :: rest
    else (k', vs) :: alistAdd rest k v

theorem mem_alistGet_alistAdd (m : List (String × List String))
    (k v k' x : String) :
    x ∈ alistGet (alistAdd m k v) k' ↔
      x ∈ alistGet m k' ∨ (k' = k ∧ x = v) := by
  induction m with
  | nil =>
    by_cases h : k = k'
    · subst h
      simp [alistAdd, alistGet]
    · simp [alistAdd, alistGet, h, Ne.symm h]
  | cons p rest ih =>
    obtain ⟨k0, vs⟩ := p
    by_cases h0 : k0 = k
    · subst h0
      by_cases h1 : k0 = k'
      · subst h1
        by_cases h2 : v ∈ vs
        · simp only [alistAdd, if_pos rfl, if_pos h2, alistGet, List.mem_cons]
          constructor
          · intro hx
            exact Or.inl hx
          · intro hx
            rcases hx with hx | ⟨_, hx⟩
            · exact hx
            · rw [hx]
              exact h2
        · simp [alistAdd, alistGet, h2]
      · simp [alistAdd, alistGet, h1, Ne.symm h1]
    · by_cases h1 : k0 = k'
      · subst h1
        simp [alistAdd, alistGet, h0]
      · simp [alistAdd, alistGet, h0, h1, ih]

/-! ## `DependencyMapper` (dependency_mapper.py) -/

/-- State of a `DependencyMapper` instance: the four dictionaries set up in
`__init__`. -/
structure DependencyMapper where
  dependencies : List (String × List String)
  reverse_dependencies : List (String × List String)
  file_symbols : List (String × List String)
  symbol_files : List (String × List String)
deriving DecidableEq

/-- A freshly constructed `DependencyMapper()`. -/
def initMapper : DependencyMapper := ⟨[], [], [], []⟩

/-- `add_file_dependency`: both paths are canonicalised with
`Path(...).resolve()` (the `resolve` parameter) and the edge is inserted in
both directions unless the two canonical paths coincide. -/
def add_file_dependency (resolve : String → String) (m : DependencyMapper)
    (source_file target_file : String) : DependencyMapper :=
  if resolve source_file ≠ resolve target_file then
    { m with
      dependencies :=
        alistAdd m.dependencies (resolve source_file) (resolve target_file)
      reverse_dependencies :=
        alistAdd m.reverse_dependencies (resolve target_file)
          (resolve source_file) }
  else m

/-- `add_symbol_definition`: records the canonical path under the symbol and
the symbol under the canonical path. -/
def add_symbol_definition (resolve : String → String) (m : DependencyMapper)
    (file_path symbol_name : String) : DependencyMapper :=
  { m with
    file_symbols := alistAdd m.file_symbols (resolve file_path) symbol_name
    symbol_files := alistAdd m.symbol_files symbol_name (resolve file_path) }

/-- `add_symbol_reference`: adds a file dependency on every file currently
known to define the symbol. -/
def add_symbol_reference (resolve : String → String) (m : DependencyMapper)
    (file_path symbol_name : String) : DependencyMapper :=
  (alistGet m.symbol_files symbol_name).foldl
    (fun acc def_file =>
      add_file_dependency resolve acc (resolve file_path) def_file) m

/-- `get_file_dependencies`: canonicalises the argument and reads the
`dependencies` dictionary. -/
def get_file_dependencies (resolve : String → String) (m : DependencyMapper)
    (file_path : String) : List String :=
  alistGet m.dependencies (resolve file_path)

/-- One mutating call on a `DependencyMapper`, for quantifying over every
sequence of operations. -/
inductive MapperOp where
  | fileDep (source target : String)
  | symbolDef (file symbol : String)
  | symbolRef (file symbol : String)

/-- Dispatch one operation. -/
def applyOp (resolve : String → String) (m : DependencyMapper) :
    MapperOp → DependencyMapper
  | .fileDep s t => add_file_dependency resolve m s t
  | .symbolDef f sym => add_symbol_definition resolve m f sym
  | .symbolRef f sym => add_symbol_reference resolve m f sym

/-- Run a whole sequence of mutating calls. -/
def runOps (resolve : String → String) (ops : List MapperOp)
    (m : DependencyMapper) : DependencyMapper :=
  ops.foldl (applyOp resolve) m

/-- The graph invariant of the spec: the two adjacency dictionaries mirror
each other, and no file depends on itself. -/
def MapperInv (m : DependencyMapper) : Prop :=
  (∀ s t, t ∈ alistGet m.dependencies s ↔ s ∈ alistGet m.reverse_dependencies t)
  ∧ (∀ a, a ∉ alistGet m.dependencies a)

/-- Auxiliary invariant: every endpoint stored in `dependencies` is a
canonical (resolve-fixed) path. -/
def ResolvedEdges (resolve : String → String) (m : DependencyMapper) : Prop :=
  ∀ s t, t ∈ alistGet m.dependencies s → resolve s = s ∧ resolve t = t

theorem mapperInv_init : MapperInv initMapper := by
  constructor <;> intro s <;> simp [initMapper, alistGet]

theorem resolvedEdges_init (resolve : String → String) :
    ResolvedEdges resolve initMapper := by
  intro s t h
  simp [initMapper, alistGet] at h

theorem mapperInv_add_file_dependency (resolve : String → String)
    (m : DependencyMapper) (a b : String) (h : MapperInv m) :
    MapperInv (add_file_dependency resolve m a b) := by
  obtain ⟨hiff, hself⟩ := h
  unfold add_file_dependency
  by_cases hne : resolve a ≠ resolve b
  · rw [if_pos hne]
    constructor
    · intro s t
      simp only [mem_alistGet_alistAdd]
      rw [hiff]
      tauto
    · intro x
      simp only [mem_alistGet_alistAdd]
      intro hx
      rcases hx with hx | ⟨hx1, hx2⟩
      · exact hself x hx
      · exact hne (hx1.symm.trans hx2)
  · rw [if_neg hne]
    exact ⟨hiff, hself⟩

theorem resolvedEdges_add_file_dependency (resolve : String → String)
    (m : DependencyMapper) (a b : String)
    (hres : ∀ x, resolve (resolve x) = resolve x)
    (h : ResolvedEdges resolve m) :
    ResolvedEdges resolve (add_file_dependency resolve m a b) := by
  unfold add_file_dependency
  by_cases hne : resolve a ≠ resolve b
  · rw [if_pos hne]
    intro s t
    simp only [mem_alistGet_alistAdd]
    intro ht
    rcases ht with ht | ⟨ht1, ht2⟩
    · exact h s t ht
    · subst ht1; subst ht2
      exact ⟨hres a, hres b⟩
  · rw [if_neg hne]
    exact h

/-- Folding `add_file_dependency` over a list (the loop body of
`add_symbol_reference`) preserves both invariants. -/
theorem mapperInv_fold (resolve : String → String) (f : String)
    (ds : List String) :
    ∀ m : DependencyMapper, MapperInv m →
      MapperInv (ds.foldl
        (fun acc def_file => add_file_dependency resolve acc f def_file) m) := by
  induction ds with
  | nil => intro m h; simpa using h
  | cons d ds ih =>
    intro m h
    exact ih _ (mapperInv_add_file_dependency resolve m f d h)

theorem resolvedEdges_fold (resolve : String → String) (f : String)
    (ds : List String) (hres : ∀ x, resolve (resolve x) = resolve x) :
    ∀ m : DependencyMapper, ResolvedEdges resolve m →
      ResolvedEdges resolve (ds.foldl
        (fun acc def_file => add_file_dependency resolve acc f def_file) m) := by
  induction ds with
  | nil => intro m h; simpa using h
  | cons d ds ih =>
    intro m h
    exact ih _ (resolvedEdges_add_file_dependency resolve m f d hres h)

theorem mapperInv_applyOp (resolve : String → String) (m : DependencyMapper)
    (op : MapperOp) (h : MapperInv m) :
    MapperInv (applyOp resolve m op) := by
  cases op with
  | fileDep s t => exact mapperInv_add_file_dependency resolve m s t h
  | symbolDef f sym =>
    obtain ⟨hiff, hself⟩ := h
    exact ⟨hiff, hself⟩
  | symbolRef f sym =>
    exact mapperInv_fold resolve (resolve f) _ m h

theorem resolvedEdges_applyOp (resolve : String → String)
    (m : DependencyMapper) (op : MapperOp)
    (hres : ∀ x, resolve (resolve x) = resolve x)
    (h : ResolvedEdges resolve m) :
    ResolvedEdges resolve (applyOp resolve m op) := by
  cases op with
  | fileDep s t => exact resolvedEdges_add_file_dependency resolve m s t hres h
  | symbolDef f sym => exact h
  | symbolRef f sym => exact resolvedEdges_fold resolve (resolve f) _ hres m h

theorem mapperInv_runOps (resolve : String → String) (ops : List MapperOp) :
    ∀ m : DependencyMapper, MapperInv m → ResolvedEdges resolve m →
      (∀ x, resolve (resolve x) = resolve x) →
      MapperInv (runOps resolve ops m) ∧
        ResolvedEdges resolve (runOps resolve ops m) := by
  induction ops with
  | nil => intro m h1 h2 _; exact ⟨h1, h2⟩
  | cons op ops ih =>
    intro m h1 h2 hres
    exact ih _ (mapperInv_applyOp resolve m op h1)
      (resolvedEdges_applyOp resolve m op hres h2) hres

/-- C4: every sequence of `add_file_dependency`, `add_symbol_definition` and
`add_symbol_reference` calls preserves the graph invariant
(`t ∈ dependencies[s] ↔ s ∈ reverse_dependencies[t]`, and no file depends
on itself); `add_file_dependency(a, a)` is a no-op, and after any run of
operations from a fresh mapper `get_file_dependencies(a)` contains neither
`a` nor its canonical form. The canonicalising function is a parameter and
is assumed idempotent where needed, as `Path.resolve` is. -/
theorem c4_mapper_invariant_preserved :
    (∀ (resolve : String → String) (m : DependencyMapper) (a : String),
      add_file_dependency resolve m a a = m) ∧
    MapperInv initMapper ∧
    (∀ (resolve : String → String) (m : DependencyMapper) (op : MapperOp),
      MapperInv m → MapperInv (applyOp resolve m op)) ∧
    (∀ (resolve : String → String) (ops : List MapperOp) (a : String),
      (∀ x, resolve (resolve x) = resolve x) →
      a ∉ get_file_dependencies resolve (runOps resolve ops initMapper) a ∧
      resolve a ∉
        get_file_dependencies resolve (runOps resolve ops initMapper) a) := by
  refine ⟨?_, mapperInv_init, mapperInv_applyOp, ?_⟩
  · intro resolve m a
    simp [add_file_dependency]
  · intro resolve ops a hres
    obtain ⟨⟨_, hself⟩, hfix⟩ :=
      mapperInv_runOps resolve ops initMapper mapperInv_init
        (resolvedEdges_init resolve) hres
    constructor
    · intro hmem
      unfold get_file_dependencies at hmem
      rcases hfix (resolve a) a hmem with ⟨_, ht⟩
      rw [ht] at hmem
      exact hself a hmem
    · intro hmem
      unfold get_file_dependencies at hmem
      exact hself (resolve a) hmem

theorem mem_dep_add_file_dependency (resolve : String → String)
    (m : DependencyMapper) (a b k x : String)
    (h : x ∈ alistGet m.dependencies k) :
    x ∈ alistGet (add_file_dependency resolve m a b).dependencies k := by
  unfold add_file_dependency
  by_cases hne : resolve a ≠ resolve b
  · rw [if_pos hne]
    exact (mem_alistGet_alistAdd _ _ _ _ _).mpr (Or.inl h)
  · rw [if_neg hne]
    exact h

theorem mem_dep_fold_mono (resolve : String → String) (F k x : String)
    (ds : List String) :
    ∀ m : DependencyMapper, x ∈ alistGet m.dependencies k →
      x ∈ alistGet ((ds.foldl
        (fun acc def_file => add_file_dependency resolve acc F def_file)
          m).dependencies) k := by
  induction ds with
  | nil => intro m h; exact h
  | cons d ds ih =>
    intro m h
    exact ih _ (mem_dep_add_file_dependency resolve m F d k x h)

theorem mem_dep_fold_adds (resolve : String → String) (F d0 : String)
    (hne : resolve F ≠ resolve d0) (ds : List String) :
    ∀ m : DependencyMapper, d0 ∈ ds →
      resolve d0 ∈ alistGet ((ds.foldl
        (fun acc def_file => add_file_dependency resolve acc F def_file)
          m).dependencies) (resolve F) := by
  induction ds with
  | nil => intro m h; exact absurd h (List.not_mem_nil d0)
  | cons d ds ih =>
    intro m h
    rcases List.mem_cons.mp h with h | h
    · subst h
      have hstep : resolve d0 ∈
          alistGet (add_file_dependency resolve m F d0).dependencies
            (resolve F) := by
        unfold add_file_dependency
        rw [if_pos hne]
        exact (mem_alistGet_alistAdd _ _ _ _ _).mpr (Or.inr ⟨rfl, rfl⟩)
      exact mem_dep_fold_mono resolve F (resolve F) (resolve d0) ds _ hstep
    · exact ih _ h

/-- C5 (amended): after `add_symbol_definition(f1, s)`, a subsequent
`add_symbol_reference(f2, s)` makes `get_file_dependencies(f2)` contain the
canonical form of `f1`, provided the two canonical paths are distinct (a
self-edge is silently dropped by `add_file_dependency`). The `resolve`
parameter stands for `Path(...).resolve()` and is assumed idempotent, as
path resolution is. -/
theorem c5_reference_adds_dependency (resolve : String → String)
    (m : DependencyMapper) (f1 f2 sym : String)
    (hres : ∀ x, resolve (resolve x) = resolve x)
    (hne : resolve f1 ≠ resolve f2) :
    resolve f1 ∈ get_file_dependencies resolve
      (add_symbol_reference resolve (add_symbol_definition resolve m f1 sym)
        f2 sym) f2 := by
  unfold get_file_dependencies add_symbol_reference
  have hmem : resolve f1 ∈
      alistGet (add_symbol_definition resolve m f1 sym).symbol_files sym := by
    unfold add_symbol_definition
    exact (mem_alistGet_alistAdd _ _ _ _ _).mpr (Or.inr ⟨rfl, rfl⟩)
  have hne' : resolve (resolve f2) ≠ resolve (resolve f1) := by
    rw [hres, hres]
    exact fun h => hne h.symm
  have h := mem_dep_fold_adds resolve (resolve f2) (resolve f1) hne' _
    (add_symbol_definition resolve m f1 sym) hmem
  rw [hres, hres] at h
  exact h

/-- C5, claim as frozen, refuted: with `f1 = f2 = "a"` (so both resolve to
the same canonical path; `resolve` instantiated to `id`, which is how
`Path.resolve` acts on an already-canonical path), the reference does not
add the self-edge, so `get_file_dependencies` does not contain the
canonical form of `f1`. -/
theorem c5_self_reference_counterexample :
    ¬ ((fun x => x : String → String) "a" ∈ get_file_dependencies (fun x => x)
      (add_symbol_reference (fun x => x)
        (add_symbol_definition (fun x => x) initMapper "a" "s") "a" "s")
      "a") := by decide

theorem c5_reference_adds_dependency_witness :
    (∀ x : String, (fun y => y : String → String) ((fun y => y) x) =
      (fun y => y : String → String) x) ∧
    ((fun y => y : String → String) "a" ≠ (fun y => y) "b") ∧
    (fun y => y : String → String) "a" ∈ get_file_dependencies (fun y => y)
      (add_symbol_reference (fun y => y)
        (add_symbol_definition (fun y => y) initMapper "a" "s") "b" "s")
      "b" :=
  ⟨fun _ => rfl, by decide,
    c5_reference_adds_dependency (fun y => y) initMapper "a" "b" "s"
      (fun _ => rfl) (by decide)⟩

theorem c4_mapper_invariant_preserved_witness :
    MapperInv (applyOp (fun y => y : String → String) initMapper
      (MapperOp.fileDep "a" "b")) ∧
    (∀ x : String, (fun y => y : String → String) ((fun y => y) x) =
      (fun y => y : String → String) x) ∧
    ¬ ("a" ∈ get_file_dependencies (fun y => y : String → String)
      (runOps (fun y => y) [MapperOp.fileDep "a" "b"] initMapper) "a") :=
  ⟨c4_mapper_invariant_preserved.2.2.1 (fun y => y) initMapper
      (MapperOp.fileDep "a" "b") c4_mapper_invariant_preserved.2.1,
    fun _ => rfl,
    (c4_mapper_invariant_preserved.2.2.2 (fun y => y)
      [MapperOp.fileDep "a" "b"] "a" (fun _ => rfl)).1⟩

/-! ## `SymbolTable` (symbol_table.py) -/

/-- A `Symbol` as constructed in symbol_table.py: name, kind, type string,
scope, and the set of files where it is referenced. -/
structure CSymbol where
  name : String
  kind : String
  type_info : String
  scope : String
  references : List String
deriving DecidableEq

/-- State of a `SymbolTable`: the `symbols` dict, keyed by symbol name, in
insertion order. -/
structure SymbolTable where
  symbols : List (String × CSymbol)
deriving DecidableEq

/-- A freshly constructed `SymbolTable()`. -/
def initSymbolTable : SymbolTable := ⟨[]⟩

/-- `add_symbol`: if a symbol with the same name already exists, a warning
is logged and nothing changes; otherwise the symbol is inserted. The
returned boolean records whether the duplicate warning was logged. -/
def add_symbol (t : SymbolTable) (s : CSymbol) : SymbolTable × Bool :=
  if s.name ∈ t.symbols.map Prod.fst then (t, true)
  else (⟨t.symbols ++ [(s.name, s)]⟩, false)

/-- Name lookup in the underlying insertion-ordered dict entries. -/
def lookupName (l : List (String × CSymbol)) (n : String) : Option CSymbol :=
  match l with
  | [] => none
  | (k, s) :: rest => if k = n then some s else lookupName rest n

/-- `get_symbol`: `self.symbols.get(name)`. -/
def get_symbol (t : SymbolTable) (n : String) : Option CSymbol :=
  lookupName t.symbols n

theorem lookupName_append_of_notMem (l l' : List (String × CSymbol))
    (n : String) (h : n ∉ l.map Prod.fst) :
    lookupName (l ++ l') n = lookupName l' n := by
  induction l with
  | nil => simp
  | cons p rest ih =>
    obtain ⟨k, s⟩ := p
    simp only [List.map_cons, List.mem_cons] at h
    push_neg at h
    simp only [List.cons_append, lookupName]
    rw [if_neg (Ne.symm h.1)]
    exact ih h.2

/-- C9: adding a symbol whose name is already in the table logs a warning
and leaves the table unchanged; after two `add_symbol` calls with the same
name (the first one on a table not yet containing that name), `get_symbol`
returns the first symbol, so in particular its `kind` is the first call's
kind. -/
theorem c9_add_symbol_rejects_duplicates :
    (∀ (t : SymbolTable) (s : CSymbol), s.name ∈ t.symbols.map Prod.fst →
      add_symbol t s = (t, true)) ∧
    (∀ (t : SymbolTable) (s1 s2 : CSymbol),
      s1.name ∉ t.symbols.map Prod.fst → s2.name = s1.name →
      get_symbol (add_symbol (add_symbol t s1).1 s2).1 s1.name = some s1 ∧
      Option.map CSymbol.kind
        (get_symbol (add_symbol (add_symbol t s1).1 s2).1 s1.name) =
        some s1.kind) := by
  constructor
  · intro t s h
    unfold add_symbol
    rw [if_pos h]
  · intro t s1 s2 hfresh heq
    have h1 : add_symbol t s1 = (⟨t.symbols ++ [(s1.name, s1)]⟩, false) := by
      unfold add_symbol
      rw [if_neg hfresh]
    have hmem2 : s2.name ∈
        (t.symbols ++ [(s1.name, s1)]).map Prod.fst := by
      rw [heq]
      simp
    have h2 : add_symbol (⟨t.symbols ++ [(s1.name, s1)]⟩ : SymbolTable) s2 =
        (⟨t.symbols ++ [(s1.name, s1)]⟩, true) := by
      unfold add_symbol
      rw [if_pos hmem2]
    rw [h1, h2]
    have hget : get_symbol ⟨t.symbols ++ [(s1.name, s1)]⟩ s1.name = some s1 := by
      unfold get_symbol
      rw [lookupName_append_of_notMem t.symbols [(s1.name, s1)] s1.name hfresh]
      simp [lookupName]
    exact ⟨hget, by rw [hget]; rfl⟩

theorem c9_add_symbol_rejects_duplicates_witness :
    (CSymbol.mk "f" "function" "int" "global" []).name ∈
      (⟨[("f", CSymbol.mk "f" "variable" "int" "global" [])]⟩ :
        SymbolTable).symbols.map Prod.fst ∧
    add_symbol (⟨[("f", CSymbol.mk "f" "variable" "int" "global" [])]⟩ :
        SymbolTable) (CSymbol.mk "f" "function" "int" "global" []) =
      (⟨[("f", CSymbol.mk "f" "variable" "int" "global" [])]⟩, true) ∧
    get_symbol (add_symbol (add_symbol initSymbolTable
        (CSymbol.mk "g" "variable" "int" "global" [])).1
        (CSymbol.mk "g" "function" "int" "global" [])).1 "g" =
      some (CSymbol.mk "g" "variable" "int" "global" []) :=
  ⟨by decide,
    c9_add_symbol_rejects_duplicates.1
      ⟨[("f", CSymbol.mk "f" "variable" "int" "global" [])]⟩
      (CSymbol.mk "f" "function" "int" "global" []) (by decide),
    (c9_add_symbol_rejects_duplicates.2 initSymbolTable
      (CSymbol.mk "g" "variable" "int" "global" [])
      (CSymbol.mk "g" "function" "int" "global" [])
      (by decide) (by decide)).1⟩

/-! ## `_process_conditionals` (c_preprocessor.py) -/

/-- Python `str.strip()`'s whitespace class (ASCII). -/
def pyIsSpace (c : Char) : Bool :=
  c == ' ' || c == '\t' || c == '\n' || c == '\r' || c == '\x0b' || c == '\x0c'

/-- Python `str.strip()`: drop whitespace from both ends. -/
def pyStrip (s : PyStr) : PyStr :=
  ((s.dropWhile pyIsSpace).reverse.dropWhile pyIsSpace).reverse

/-- Python `str.startswith(pat)`. -/
def pyStartsWith (s pat : PyStr) : Bool :=
  match pat, s with
  | [], _ => true
  | _ :: _, [] => false
  | a :: pat', b :: s' => a == b && pyStartsWith s' pat'

/-- The test `line.strip().startswith(('#if', '#ifdef', '#ifndef'))` opening
a skip region. -/
def isCondStart (line : PyStr) : Bool :=
  pyStartsWith (pyStrip line) (pys "#if") ||
    pyStartsWith (pyStrip line) (pys "#ifdef") ||
    pyStartsWith (pyStrip line) (pys "#ifndef")

/-- The test `line.strip().startswith('#endif')` closing a skip region. -/
def isEndifLine (line : PyStr) : Bool :=
  pyStartsWith (pyStrip line) (pys "#endif")

/-- The line loop of `_process_conditionals`, with the `skip_until_endif`
flag as second argument. -/
def process_conditionals_lines : List PyStr → Bool → List PyStr
  | [], _ => []
  | line :: rest, true =>
    if isEndifLine line then process_conditionals_lines rest false
    else process_conditionals_lines rest true
  | line :: rest, false =>
    if isCondStart line then process_conditionals_lines rest true
    else line :: process_conditionals_lines rest false

/-- Python `source.split('\n')`. -/
def splitOnNl : PyStr → List PyStr
  | [] => [[]]
  | c :: rest =>
    if c = '\n' then [] :: splitOnNl rest
    else
      match splitOnNl rest with
      | [] => [[c]]
      | l :: ls => (c :: l) :: ls

/-- Python `'\n'.join(lines)`. -/
def joinNl : List PyStr → PyStr
  | [] => []
  | [l] => l
  | l :: ls => l ++ '\n' :: joinNl ls

/-- `_process_conditionals`: split into lines, run the skip loop starting
outside any conditional block, and join the surviving lines. -/
def process_conditionals (s : PyStr) : PyStr :=
  joinNl (process_conditionals_lines (splitOnNl s) false)

theorem splitOnNl_no_newline (l : PyStr) (h : '\n' ∉ l) :
    splitOnNl l = [l] := by
  induction l with
  | nil => rfl
  | cons c rest ih =>
    simp only [List.mem_cons] at h
    push_neg at h
    have hc : ¬ (c = '\n') := fun hh => h.1 hh.symm
    simp only [splitOnNl, if_neg hc, ih h.2]

theorem splitOnNl_append_newline (l r : PyStr) (h : '\n' ∉ l) :
    splitOnNl (l ++ '\n' :: r) = l :: splitOnNl r := by
  induction l with
  | nil => simp [splitOnNl]
  | cons c rest ih =>
    simp only [List.mem_cons] at h
    push_neg at h
    have hc : ¬ (c = '\n') := fun hh => h.1 hh.symm
    simp only [List.cons_append, splitOnNl, if_neg hc, List.append_eq]
    rw [ih h.2]

theorem splitOnNl_joinNl (ls : List PyStr) (hne : ls ≠ [])
    (h : ∀ l ∈ ls, '\n' ∉ l) :
    splitOnNl (joinNl ls) = ls := by
  induction ls with
  | nil => exact absurd rfl hne
  | cons l ls ih =>
    cases ls with
    | nil =>
      simp only [joinNl]
      exact splitOnNl_no_newline l (h l (List.mem_cons_self l []))
    | cons l2 ls2 =>
      have hstep : joinNl (l :: l2 :: ls2) = l ++ '\n' :: joinNl (l2 :: ls2) :=
        rfl
      rw [hstep,
        splitOnNl_append_newline l _ (h l (List.mem_cons_self l _)),
        ih (List.cons_ne_nil l2 ls2) (fun x hx => h x (List.mem_cons_of_mem l hx))]

theorem cond_lines_pass (ls : List PyStr)
    (h : ∀ l ∈ ls, isCondStart l = false) :
    process_conditionals_lines ls false = ls := by
  induction ls with
  | nil => rfl
  | cons l ls ih =>
    have hl : isCondStart l = false := h l (List.mem_cons_self l ls)
    simp only [process_conditionals_lines, hl, Bool.false_eq_true, if_false]
    rw [ih (fun x hx => h x (List.mem_cons_of_mem l hx))]

theorem cond_lines_skip (body post : List PyStr) (endl : PyStr)
    (hb : ∀ l ∈ body, isEndifLine l = false) (he : isEndifLine endl = true) :
    process_conditionals_lines (body ++ endl :: post) true =
      process_conditionals_lines post false := by
  induction body with
  | nil =>
    simp only [List.nil_append, process_conditionals_lines, he, if_true]
  | cons l body ih =>
    have hl : isEndifLine l = false := hb l (List.mem_cons_self l body)
    simp only [List.cons_append, process_conditionals_lines, hl,
      Bool.false_eq_true, if_false]
    exact ih (fun x hx => hb x (List.mem_cons_of_mem l hx))

theorem cond_lines_skip_to_end (rest : List PyStr)
    (h : ∀ l ∈ rest, isEndifLine l = false) :
    process_conditionals_lines rest true = [] := by
  induction rest with
  | nil => rfl
  | cons l rest ih =>
    have hl : isEndifLine l = false := h l (List.mem_cons_self l rest)
    simp only [process_conditionals_lines, hl, Bool.false_eq_true, if_false]
    exact ih (fun x hx => h x (List.mem_cons_of_mem l hx))

theorem cond_lines_front (pre tail : List PyStr)
    (h : ∀ l ∈ pre, isCondStart l = false) :
    process_conditionals_lines (pre ++ tail) false =
      pre ++ process_conditionals_lines tail false := by
  induction pre with
  | nil => rfl
  | cons l pre ih =>
    have hl : isCondStart l = false := h l (List.mem_cons_self l pre)
    simp only [List.cons_append, process_conditionals_lines, hl,
      Bool.false_eq_true, if_false]
    exact congrArg (l :: ·) (ih (fun x hx => h x (List.mem_cons_of_mem l hx)))

/-- C8: conditional processing discards every line from a line whose
stripped form begins with `#if`, `#ifdef` or `#ifndef` up to and including
the first subsequent `#endif` line. The condition is never evaluated and
nesting is not tracked: the skipped `body` lines are only required not to
be `#endif` lines, so they may themselves open conditionals, and the first
`#endif` ends the skip. Every line outside a skip region passes through
unchanged. The last conjunct states the block property through
`_process_conditionals` on the joined source text. -/
theorem c8_conditionals_unconditional_skip :
    (∀ (pre : List PyStr) (ifl : PyStr) (body : List PyStr) (endl : PyStr) (post : List PyStr),
      (∀ l ∈ pre, isCondStart l = false) → isCondStart ifl = true →
      (∀ l ∈ body, isEndifLine l = false) → isEndifLine endl = true →
      process_conditionals_lines (pre ++ ifl :: (body ++ endl :: post)) false =
        pre ++ process_conditionals_lines post false) ∧
    (∀ ls : List PyStr, (∀ l ∈ ls, isCondStart l = false) →
      process_conditionals_lines ls false = ls) ∧
    (∀ (pre : List PyStr) (ifl : PyStr) (body : List PyStr) (endl : PyStr) (post : List PyStr),
      (∀ l ∈ pre, isCondStart l = false) → isCondStart ifl = true →
      (∀ l ∈ body, isEndifLine l = false) → isEndifLine endl = true →
      (∀ l ∈ pre ++ ifl :: (body ++ endl :: post), '\n' ∉ l) →
      process_conditionals (joinNl (pre ++ ifl :: (body ++ endl :: post))) =
        joinNl (pre ++ process_conditionals_lines post false)) := by
  have main : ∀ (pre : List PyStr) (ifl : PyStr) (body : List PyStr) (endl : PyStr) (post : List PyStr),
      (∀ l ∈ pre, isCondStart l = false) → isCondStart ifl = true →
      (∀ l ∈ body, isEndifLine l = false) → isEndifLine endl = true →
      process_conditionals_lines (pre ++ ifl :: (body ++ endl :: post)) false =
        pre ++ process_conditionals_lines post false := by
    intro pre ifl body endl post hpre hif hb he
    rw [cond_lines_front pre _ hpre]
    congr 1
    simp only [process_conditionals_lines, hif, if_true]
    exact cond_lines_skip body post endl hb he
  refine ⟨main, cond_lines_pass, ?_⟩
  intro pre ifl body endl post hpre hif hb he hnl
  unfold process_conditionals
  rw [splitOnNl_joinNl _ (by simp) hnl, main pre ifl body endl post hpre hif hb he]

theorem c8_conditionals_unconditional_skip_witness :
    (∀ l ∈ [pys "int a;"], isCondStart l = false) ∧
    isCondStart (pys "#ifdef FOO") = true ∧
    (∀ l ∈ [pys "int hidden;", pys "#if NESTED"], isEndifLine l = false) ∧
    isEndifLine (pys "#endif") = true ∧
    process_conditionals_lines
      ([pys "int a;"] ++ pys "#ifdef FOO" ::
        ([pys "int hidden;", pys "#if NESTED"] ++ pys "#endif" ::
          [pys "int b;"])) false =
      [pys "int a;"] ++ process_conditionals_lines [pys "int b;"] false :=
  ⟨by decide, by decide, by decide, by decide,
    c8_conditionals_unconditional_skip.1 [pys "int a;"] (pys "#ifdef FOO")
      [pys "int hidden;", pys "#if NESTED"] (pys "#endif") [pys "int b;"]
      (by decide) (by decide) (by decide) (by decide)⟩

/-- C10: a conditional start with no subsequent `#endif` silently discards
every line to the end of the input; the loop still returns normally. The
second conjunct states the property through `_process_conditionals` on the
joined source text. -/
theorem c10_unterminated_conditional_discards_rest :
    (∀ (pre : List PyStr) (ifl : PyStr) (rest : List PyStr),
      (∀ l ∈ pre, isCondStart l = false) → isCondStart ifl = true →
      (∀ l ∈ rest, isEndifLine l = false) →
      process_conditionals_lines (pre ++ ifl :: rest) false = pre) ∧
    (∀ (pre : List PyStr) (ifl : PyStr) (rest : List PyStr),
      (∀ l ∈ pre, isCondStart l = false) → isCondStart ifl = true →
      (∀ l ∈ rest, isEndifLine l = false) →
      (∀ l ∈ pre ++ ifl :: rest, '\n' ∉ l) →
      process_conditionals (joinNl (pre ++ ifl :: rest)) = joinNl pre) := by
  have main : ∀ (pre : List PyStr) (ifl : PyStr) (rest : List PyStr),
      (∀ l ∈ pre, isCondStart l = false) → isCondStart ifl = true →
      (∀ l ∈ rest, isEndifLine l = false) →
      process_conditionals_lines (pre ++ ifl :: rest) false = pre := by
    intro pre ifl rest hpre hif hr
    rw [cond_lines_front pre _ hpre]
    simp only [process_conditionals_lines, hif, if_true]
    rw [cond_lines_skip_to_end rest hr, List.append_nil]
  refine ⟨main, ?_⟩
  intro pre ifl rest hpre hif hr hnl
  unfold process_conditionals
  rw [splitOnNl_joinNl _ (by simp) hnl, main pre ifl rest hpre hif hr]

theorem c10_unterminated_conditional_witness :
    (∀ l ∈ [pys "int a;"], isCondStart l = false) ∧
    isCondStart (pys "  #ifndef BAR") = true ∧
    (∀ l ∈ [pys "int lost;", pys "int gone;"], isEndifLine l = false) ∧
    process_conditionals_lines
      ([pys "int a;"] ++ pys "  #ifndef BAR" ::
        [pys "int lost;", pys "int gone;"]) false = [pys "int a;"] :=
  ⟨by decide, by decide, by decide,
    c10_unterminated_conditional_discards_rest.1 [pys "int a;"]
      (pys "  #ifndef BAR") [pys "int lost;", pys "int gone;"]
      (by decide) (by decide) (by decide)⟩

/-! ## `_expand_macros` (c_preprocessor.py) -/

/-- The regex word class `\w` for ASCII text: letters, digits, underscore. -/
def isWordChar (c : Char) : Bool := c.isAlphanum || c == '_'

/-- Word-character test on an optional character (`none` at either end of
the string counts as a non-word position). -/
def wOpt : Option Char → Bool
  | none => false
  | some c => isWordChar c

/-- One pass of `re.sub(r'\b' + re.escape(name) + r'\b', value, source)`:
a left-to-right scan replacing each non-overlapping whole-word occurrence
of `n` by `v`. Word boundaries are judged on the original text (`prev` is
the character just before the current position). The scan consumes at
least one character of the original text per step, so fuel equal to the
text length makes the fuel bound unreachable; an empty macro name never
matches. -/
def subWordFuel (n v : PyStr) : Nat → Option Char → PyStr → PyStr
  | 0, _, s => s
  | _ + 1, _, [] => []
  | fuel + 1, prev, c :: cs =>
    if n ≠ [] ∧ pyStartsWith (c :: cs) n ∧ wOpt prev ≠ isWordChar c ∧
        wOpt n.getLast? ≠ wOpt ((c :: cs).drop n.length).head?
    then v ++ subWordFuel n v fuel n.getLast? ((c :: cs).drop n.length)
    else c :: subWordFuel n v fuel (some c) cs

/-- Whole-word replacement of macro `n` by `v` in `s` (one regex pass). -/
def subWord (n v s : PyStr) : PyStr := subWordFuel n v s.length none s

/-- `_expand_macros`: one substitution pass per macro, in the insertion
order of the `macros` dict. -/
def expand_macros (macros : List (PyStr × PyStr)) (source : PyStr) : PyStr :=
  macros.foldl (fun src p => subWord p.1 p.2 src) source

/-- C6: macro expansion is a single linear pass per macro in definition
order, with no fixed-point re-scan. The last-defined macro's pass runs
last, so text it substitutes in undergoes no further expansion (first
conjunct); the first-defined macro's pass runs first, so its output is
still subject to every later macro's pass (second conjunct). Concretely:
with `A := B` defined before `B := 1`, the text `A` expands to `1`, while
with `B := 1` defined before `A := B`, the text `A` expands to `B` and the
mention of `B` in `A`'s replacement is not expanded further; substitution
is whole-word, so macro `x` does not touch the `x` inside `max`. -/
theorem c6_macro_expansion_single_pass :
    (∀ (ms : List (PyStr × PyStr)) (n v s : PyStr),
      expand_macros (ms ++ [(n, v)]) s = subWord n v (expand_macros ms s)) ∧
    (∀ (ms : List (PyStr × PyStr)) (n v s : PyStr),
      expand_macros ((n, v) :: ms) s = expand_macros ms (subWord n v s)) ∧
    expand_macros [(pys "A", pys "B"), (pys "B", pys "1")] (pys "A") =
      pys "1" ∧
    expand_macros [(pys "B", pys "1"), (pys "A", pys "B")] (pys "A") =
      pys "B" ∧
    expand_macros [(pys "x", pys "1")] (pys "max x") = pys "max 1" := by
  refine ⟨?_, ?_, by decide, by decide, by decide⟩
  · intro ms n v s
    simp [expand_macros]
  · intro ms n v s
    rfl

/-! ## `_process_includes`, `process_source`, `process_file`, `reset`
(c_preprocessor.py)

The regex scan `re.sub(r'#include\s*[<"]([^>"]+)[>"]', ...)` is abstracted
by presenting a source text as a list of items: literal text runs and
include directives, each directive carrying its captured spec (group 1)
and its raw matched text (`match.group(0)`, returned verbatim when the
include file cannot be found). -/

/-- A scanned piece of C source: literal text, or one `#include` directive
with its captured spec and its raw matched text. -/
inductive SrcItem where
  | text (t : PyStr)
  | incl (spec : PyStr) (raw : PyStr)
deriving DecidableEq

/-- The filesystem seen through `Path.exists` and `open`: `none` means the
path does not exist, `some none` an existing but unreadable file (read
raises), `some (some items)` a readable file whose contents have been
scanned into items. -/
abbrev FileSys := String → Option (Option (List SrcItem))

/-- State of a `CPreprocessor` instance: the three containers set up in
`__init__`. -/
structure CPre where
  macros : List (PyStr × PyStr)
  include_paths : List String
  processed_includes : List PyStr
deriving DecidableEq

/-- A freshly constructed `CPreprocessor()`. -/
def initPre : CPre := ⟨[], [], []⟩

/-- `add_include_path`: appended only if not already present. -/
def add_include_path (st : CPre) (path : String) : CPre :=
  if path ∈ st.include_paths then st
  else { st with include_paths := st.include_paths ++ [path] }

/-- Dict assignment `m[k] = v`: an existing key keeps its position. -/
def alistSetMacro (m : List (PyStr × PyStr)) (k v : PyStr) :
    List (PyStr × PyStr) :=
  match m with
  | [] => [(k, v)]
  | (k', v') :: rest =>
    if k' = k then (k', v) :: rest else (k', v') :: alistSetMacro rest k v

/-- `define_macro`. -/
def define_macro (st : CPre) (name value : PyStr) : CPre :=
  { st with macros := alistSetMacro st.macros name value }

/-- `reset`: clears macros, include paths and the processed-includes set;
the state afterwards equals a freshly constructed instance. -/
def reset (_st : CPre) : CPre := ⟨[], [], []⟩

/-- `Path(include_dir) / include_path`. -/
def pathJoin (dir : String) (spec : PyStr) : String :=
  dir ++ "/" ++ String.mk spec

/-- The search loop of `replace_include`: the first include directory
holding a readable copy of the spec wins; nonexistent paths and read
errors (both logged in the source) make the loop continue. -/
def search_include (env : FileSys) (dirs : List String) (spec : PyStr) :
    Option (List SrcItem) :=
  match dirs with
  | [] => none
  | d :: rest =>
    match env (pathJoin d spec) with
    | some (some items) => some items
    | _ => search_include env rest spec

/-- The inner function `replace_include` of `_process_includes`, applied to
one item: literal text passes through; an already-processed spec expands
to the empty string before anything else happens; otherwise the spec is
registered and the found file is recursively processed by `recur` (the
recursive `process_source` call), or the raw directive text is returned
when no include directory has a readable copy. -/
def replace_include (env : FileSys)
    (recur : CPre → List SrcItem → PyStr × CPre) (st : CPre) :
    SrcItem → PyStr × CPre
  | SrcItem.text t => (t, st)
  | SrcItem.incl spec raw =>
    if spec ∈ st.processed_includes then ([], st)
    else
      match search_include env st.include_paths spec with
      | none =>
        (raw, { st with processed_includes := st.processed_includes ++ [spec] })
      | some its =>
        recur { st with processed_includes := st.processed_includes ++ [spec] }
          its

/-- The `re.sub` traversal of `_process_includes`: left-to-right over the
items, concatenating the replacement pieces and threading the state. -/
def process_includes_fold (env : FileSys)
    (recur : CPre → List SrcItem → PyStr × CPre) (items : List SrcItem)
    (acc : PyStr × CPre) : PyStr × CPre :=
  items.foldl
    (fun a it =>
      (a.1 ++ (replace_include env recur a.2 it).1,
        (replace_include env recur a.2 it).2))
    acc

/-- `process_source`: expand includes (recursively processing each included
file), then expand macros, then strip conditional blocks. The fuel
argument bounds the include recursion depth; each recursive call is made
only after registering a fresh spec in `processed_includes`, so any fuel
of at least the number of distinct include specs reachable is never
exhausted. -/
def process_source (env : FileSys) : Nat → CPre → List SrcItem → PyStr × CPre
  | 0, st, _ => ([], st)
  | fuel + 1, st, items =>
    (process_conditionals (expand_macros
        (process_includes_fold env
          (fun st2 its => process_source env fuel st2 its) items
            ([], st)).2.macros
        (process_includes_fold env
          (fun st2 its => process_source env fuel st2 its) items
            ([], st)).1),
      (process_includes_fold env
        (fun st2 its => process_source env fuel st2 its) items ([], st)).2)

/-- Outcome of `process_file`: a processed text with the final preprocessor
state, or a Python exception escaping to the caller. -/
inductive PyOutcome where
  | ok (processed : PyStr) (st : CPre)
  | exn (error_name : String)
deriving DecidableEq

/-- `process_file`: read the file and run `process_source` on its contents.
If `open()`/`read()` raises (missing or unreadable file), the handler logs
the error and executes `return source`; on that path the local variable
`source` was never assigned, so Python raises `UnboundLocalError` out of
`process_file` instead of returning. -/
def process_file (env : FileSys) (fuel : Nat) (st : CPre)
    (file_path : String) : PyOutcome :=
  match env file_path with
  | some (some items) =>
    PyOutcome.ok (process_source env fuel st items).1
      (process_source env fuel st items).2
  | _ => PyOutcome.exn "UnboundLocalError"

theorem replace_include_processed_mono (env : FileSys)
    (recur : CPre → List SrcItem → PyStr × CPre)
    (hrec : ∀ st its,
      st.processed_includes ⊆ (recur st its).2.processed_includes)
    (st : CPre) (it : SrcItem) :
    st.processed_includes ⊆
      (replace_include env recur st it).2.processed_includes := by
  cases it with
  | text t => exact fun x hx => hx
  | incl spec raw =>
    by_cases hmem : spec ∈ st.processed_includes
    · simp only [replace_include, if_pos hmem]
      exact fun x hx => hx
    · simp only [replace_include, if_neg hmem]
      split
      · intro x hx
        exact List.mem_append_left _ hx
      · intro x hx
        exact hrec _ _ (List.mem_append_left _ hx)

theorem process_includes_fold_mono (env : FileSys)
    (recur : CPre → List SrcItem → PyStr × CPre)
    (hrec : ∀ st its,
      st.processed_includes ⊆ (recur st its).2.processed_includes) :
    ∀ (items : List SrcItem) (acc : PyStr × CPre),
      acc.2.processed_includes ⊆
        (process_includes_fold env recur items acc).2.processed_includes := by
  intro items
  induction items with
  | nil => intro acc; exact fun x hx => hx
  | cons it items ih =>
    intro acc
    exact fun x hx =>
      ih (acc.1 ++ (replace_include env recur acc.2 it).1,
          (replace_include env recur acc.2 it).2)
        (replace_include_processed_mono env recur hrec acc.2 it hx)

theorem process_source_processed_mono (env : FileSys) :
    ∀ (fuel : Nat) (st : CPre) (items : List SrcItem),
      st.processed_includes ⊆
        (process_source env fuel st items).2.processed_includes := by
  intro fuel
  induction fuel with
  | zero => intro st items; exact fun x hx => hx
  | succ fuel ih =>
    intro st items
    exact process_includes_fold_mono env
      (fun st2 its => process_source env fuel st2 its)
      (fun st2 its => ih st2 its) items ([], st)

theorem replace_include_registers (env : FileSys)
    (recur : CPre → List SrcItem → PyStr × CPre)
    (hrec : ∀ st its,
      st.processed_includes ⊆ (recur st its).2.processed_includes)
    (st : CPre) (spec raw : PyStr) :
    spec ∈ (replace_include env recur st
      (SrcItem.incl spec raw)).2.processed_includes := by
  by_cases hmem : spec ∈ st.processed_includes
  · simp only [replace_include, if_pos hmem]
    exact hmem
  · simp only [replace_include, if_neg hmem]
    split
    · simp
    · exact hrec _ _ (by simp)

theorem process_source_registers (env : FileSys) (fuel : Nat) (st : CPre)
    (spec raw : PyStr) (rest : List SrcItem) :
    spec ∈ (process_source env (fuel + 1) st
      (SrcItem.incl spec raw :: rest)).2.processed_includes := by
  have h1 : spec ∈ (replace_include env
      (fun st2 its => process_source env fuel st2 its) st
      (SrcItem.incl spec raw)).2.processed_includes :=
    replace_include_registers env _
      (fun st2 its => process_source_processed_mono env fuel st2 its)
      st spec raw
  exact process_includes_fold_mono env
    (fun st2 its => process_source env fuel st2 its)
    (fun st2 its => process_source_processed_mono env fuel st2 its) rest
    (([] : PyStr) ++ (replace_include env
        (fun st2 its => process_source env fuel st2 its) st
        (SrcItem.incl spec raw)).1,
      (replace_include env (fun st2 its => process_source env fuel st2 its) st
        (SrcItem.incl spec raw)).2) h1

/-- Example filesystem: one readable header at `inc/h.h`. -/
def envEx : FileSys := fun p =>
  if p = "inc/h.h" then some (some [SrcItem.text (pys "int x;")]) else none

/-- Example preprocessor state with `inc` on the include path. -/
def preEx : CPre := ⟨[], ["inc"], []⟩

/-- A source consisting of a single `#include <h.h>` directive. -/
def srcEx1 : List SrcItem := [SrcItem.incl (pys "h.h") (pys "#include <h.h>")]

/-- A source including `h.h` twice. -/
def srcEx2 : List SrcItem := srcEx1 ++ srcEx1

/-- C7: an include spec already in `processed_includes` expands to the
empty string with the state unchanged, at any point of the call tree
(`recur` arbitrary); the processed set only grows during processing, and
the first occurrence of a spec registers it before anything else, so the
second occurrence of the same spec anywhere later in one top-level call
tree expands to empty text; `reset()` yields exactly the state of a fresh
instance. Concretely: a source including `h.h` twice expands to the
header's text once; processing again with the returned state yields empty
text; after `reset()` and re-adding the include path, the same include
expands normally again. -/
theorem c7_repeat_include_expands_empty :
    (∀ (env : FileSys) (recur : CPre → List SrcItem → PyStr × CPre)
        (st : CPre) (spec raw : PyStr),
      spec ∈ st.processed_includes →
      replace_include env recur st (SrcItem.incl spec raw) = ([], st)) ∧
    (∀ (env : FileSys) (fuel : Nat) (st : CPre) (items : List SrcItem),
      st.processed_includes ⊆
        (process_source env fuel st items).2.processed_includes) ∧
    (∀ (env : FileSys) (fuel : Nat) (st : CPre) (spec raw : PyStr)
        (rest : List SrcItem),
      spec ∈ (process_source env (fuel + 1) st
        (SrcItem.incl spec raw :: rest)).2.processed_includes) ∧
    (∀ st : CPre, reset st = initPre) ∧
    process_source envEx 2 preEx srcEx2 =
      (pys "int x;", ⟨[], ["inc"], [pys "h.h"]⟩) ∧
    (process_source envEx 2 ⟨[], ["inc"], [pys "h.h"]⟩ srcEx2).1 = [] ∧
    (process_source envEx 2
      (add_include_path (reset ⟨[], ["inc"], [pys "h.h"]⟩) "inc") srcEx1).1 =
      pys "int x;" := by
  refine ⟨?_, process_source_processed_mono, process_source_registers,
    fun _ => rfl, by decide, by decide, by decide⟩
  intro env recur st spec raw hmem
  simp only [replace_include, if_pos hmem]

theorem c7_repeat_include_expands_empty_witness :
    pys "h.h" ∈ (⟨[], ["inc"], [pys "h.h"]⟩ : CPre).processed_includes ∧
    replace_include envEx
      (fun st2 its => process_source envEx 1 st2 its)
      ⟨[], ["inc"], [pys "h.h"]⟩
      (SrcItem.incl (pys "h.h") (pys "#include <h.h>")) =
      ([], ⟨[], ["inc"], [pys "h.h"]⟩) :=
  ⟨by decide,
    c7_repeat_include_expands_empty.1 envEx
      (fun st2 its => process_source envEx 1 st2 its)
      ⟨[], ["inc"], [pys "h.h"]⟩ (pys "h.h") (pys "#include <h.h>")
      (by decide)⟩

/-- C1 (code bug): for a path whose contents cannot be read (nonexistent
file, or existing file whose read raises), `process_file` catches the I/O
error and logs it, but the handler's `return source` reads the local
variable `source`, which was never assigned on this path — so Python
raises `UnboundLocalError` to the caller instead of returning the original
unprocessed source. -/
theorem c1_unreadable_file_raises (env : FileSys) (fuel : Nat) (st : CPre)
    (file_path : String)
    (h : env file_path = none ∨ env file_path = some none) :
    process_file env fuel st file_path = PyOutcome.exn "UnboundLocalError" ∧
    ∀ (t : PyStr) (st' : CPre),
      process_file env fuel st file_path ≠ PyOutcome.ok t st' := by
  have hmain : process_file env fuel st file_path =
      PyOutcome.exn "UnboundLocalError" := by
    unfold process_file
    rcases h with h | h <;> rw [h]
  refine ⟨hmain, fun t st' hcontra => ?_⟩
  rw [hmain] at hcontra
  exact PyOutcome.noConfusion hcontra

theorem c1_unreadable_file_raises_witness :
    ((fun _ => none : FileSys) "/missing.c" = none ∨
      (fun _ => none : FileSys) "/missing.c" = some none) ∧
    process_file (fun _ => none) 1 initPre "/missing.c" =
      PyOutcome.exn "UnboundLocalError" :=
  ⟨Or.inl rfl,
    (c1_unreadable_file_raises (fun _ => none) 1 initPre "/missing.c"
      (Or.inl rfl)).1⟩

/-! ## `get_dependency_order` (dependency_mapper.py) -/

/-- State of the DFS in `get_dependency_order`: the `temp_mark` set (kept
most-recent-first, so it is the recursion stack), the `visited` set, the
`order` output list, and the number of circular-dependency warnings
logged. -/
structure DfsState where
  temp : List String
  visited : List String
  order : List String
  warnings : Nat
deriving DecidableEq

/-- Keys of the `dependencies` dict, in insertion order. -/
def depKeys (g : List (String × List String)) : List String := g.map Prod.fst

/-- Every node of the dependency graph: the keys plus all edge targets. -/
def depNodes (g : List (String × List String)) : List String :=
  (g.map Prod.fst ++ g.flatMap Prod.snd).dedup

/-- The edge relation: `Edge g a b` when `b ∈ dependencies.get(a, set())`. -/
def Edge (g : List (String × List String)) (a b : String) : Prop :=
  b ∈ alistGet g a

/-- The completion step of `visit`: remove the node from `temp_mark`, add
it to `visited`, append it to `order`. -/
def visitFinish (node : String) (st : DfsState) : DfsState :=
  { temp := st.temp.erase node
    visited := st.visited ++ [node]
    order := st.order ++ [node]
    warnings := st.warnings }

/-- The recursive inner function `visit`: a temp-marked node logs a cycle
warning and returns; a visited node returns; otherwise the node is
temp-marked, its dependencies are visited, and the node is completed. The
fuel argument bounds the recursion depth; `get_dependency_order` passes
one more than the number of nodes, which the lemmas show is never
exhausted. -/
def visit (g : List (String × List String)) :
    Nat → DfsState → String → DfsState
  | 0, st, _ => st
  | fuel + 1, st, node =>
    if node ∈ st.temp then { st with warnings := st.warnings + 1 }
    else if node ∈ st.visited then st
    else
      visitFinish node ((alistGet g node).foldl (fun s d => visit g fuel s d)
        { st with temp := node :: st.temp })

/-- `get_dependency_order`: run `visit` from every key of `dependencies`
not yet visited, starting from empty sets. -/
def get_dependency_order (g : List (String × List String)) : DfsState :=
  (depKeys g).foldl
    (fun st k =>
      if k ∈ st.visited then st
      else visit g ((depNodes g).length + 1) st k)
    ⟨[], [], [], 0⟩

theorem mem_alistGet_mem_bind (g : List (String × List String))
    (x d : String) : d ∈ alistGet g x → d ∈ g.flatMap Prod.snd := by
  induction g with
  | nil => intro h; exact absurd h (List.not_mem_nil d)
  | cons p rest ih =>
    obtain ⟨k, vs⟩ := p
    intro h
    rw [List.mem_flatMap]
    by_cases hk : k = x
    · exact ⟨(k, vs), List.mem_cons_self _ _, by simpa [alistGet, hk] using h⟩
    · have h' : d ∈ alistGet rest x := by simpa [alistGet, hk] using h
      obtain ⟨q, hq, hdq⟩ := List.mem_flatMap.mp (ih h')
      exact ⟨q, List.mem_cons_of_mem _ hq, hdq⟩

theorem mem_alistGet_mem_depNodes (g : List (String × List String))
    (x d : String) (h : d ∈ alistGet g x) : d ∈ depNodes g := by
  rw [depNodes, List.mem_dedup, List.mem_append]
  exact Or.inr (mem_alistGet_mem_bind g x d h)

/-- Invariant of the DFS state, maintained by `visit` on every graph:
`temp_mark` and `order` are duplicate-free, `visited` and `order` hold the
same nodes, finished nodes are not temp-marked, the dependencies of every
finished node are finished or still on the stack, and everything stays
inside the node set of the graph. -/
structure DfsInv (g : List (String × List String)) (st : DfsState) : Prop where
  tempNodup : st.temp.Nodup
  orderNodup : st.order.Nodup
  visIffOrder : ∀ x, x ∈ st.visited ↔ x ∈ st.order
  visNotTemp : ∀ x ∈ st.visited, x ∉ st.temp
  visClosed : ∀ x ∈ st.visited, ∀ d, Edge g x d → d ∈ st.visited ∨ d ∈ st.temp
  tempNodes : ∀ x ∈ st.temp, x ∈ depNodes g
  visNodes : ∀ x ∈ st.visited, x ∈ depNodes g

/-- What one `visit` call guarantees: the invariant is kept, `temp_mark`
is restored, `visited` grows, and the visited node ends up finished unless
it was already on the stack. -/
def VisitConcl (g : List (String × List String)) (st st' : DfsState)
    (node : String) : Prop :=
  DfsInv g st' ∧ st'.temp = st.temp ∧
    (∀ x ∈ st.visited, x ∈ st'.visited) ∧
    (node ∈ st'.visited ∨ node ∈ st.temp)

theorem visit_fold_spec (g : List (String × List String)) (fuel : Nat)
    (ih : ∀ st node, DfsInv g st → node ∈ depNodes g →
      (depNodes g).length + 1 ≤ fuel + st.temp.length →
      VisitConcl g st (visit g fuel st node) node) :
    ∀ (ds : List String) (st : DfsState), DfsInv g st →
      (∀ d ∈ ds, d ∈ depNodes g) →
      (depNodes g).length + 1 ≤ fuel + st.temp.length →
      DfsInv g (ds.foldl (fun s d => visit g fuel s d) st) ∧
      (ds.foldl (fun s d => visit g fuel s d) st).temp = st.temp ∧
      (∀ x ∈ st.visited,
        x ∈ (ds.foldl (fun s d => visit g fuel s d) st).visited) ∧
      (∀ d ∈ ds,
        d ∈ (ds.foldl (fun s d => visit g fuel s d) st).visited ∨
          d ∈ st.temp) := by
  intro ds
  induction ds with
  | nil =>
    intro st h1 _ _
    exact ⟨h1, rfl, fun x hx => hx, fun d hd => absurd hd (List.not_mem_nil d)⟩
  | cons d ds ihds =>
    intro st h1 h2 h3
    simp only [List.foldl_cons]
    obtain ⟨inv1, teq1, mono1, din1⟩ :=
      ih st d h1 (h2 d (List.mem_cons_self d ds)) h3
    have h3' : (depNodes g).length + 1 ≤ fuel + (visit g fuel st d).temp.length := by
      rw [teq1]; exact h3
    obtain ⟨inv2, teq2, mono2, dall⟩ :=
      ihds (visit g fuel st d) inv1
        (fun x hx => h2 x (List.mem_cons_of_mem d hx)) h3'
    refine ⟨inv2, by rw [teq2, teq1], fun x hx => mono2 x (mono1 x hx), ?_⟩
    intro d0 hd0
    rcases List.mem_cons.mp hd0 with hd0 | hd0
    · subst hd0
      rcases din1 with hvis | htp
      · exact Or.inl (mono2 d0 hvis)
      · exact Or.inr htp
    · rcases dall d0 hd0 with hvis | htp
      · exact Or.inl hvis
      · rw [teq1] at htp
        exact Or.inr htp

theorem visit_spec (g : List (String × List String)) :
    ∀ (fuel : Nat) (st : DfsState) (node : String), DfsInv g st →
      node ∈ depNodes g →
      (depNodes g).length + 1 ≤ fuel + st.temp.length →
      VisitConcl g st (visit g fuel st node) node := by
  intro fuel
  induction fuel with
  | zero =>
    intro st node hinv _ hfuel
    exfalso
    have hle : st.temp.length ≤ (depNodes g).length :=
      (List.subperm_of_subset hinv.tempNodup
        (fun x hx => hinv.tempNodes x hx)).length_le
    omega
  | succ fuel ih =>
    intro st node hinv hnode hfuel
    by_cases ht : node ∈ st.temp
    · have hs : visit g (fuel + 1) st node =
          { st with warnings := st.warnings + 1 } := by
        simp only [visit, if_pos ht]
      rw [hs]
      exact ⟨⟨hinv.tempNodup, hinv.orderNodup, hinv.visIffOrder,
        hinv.visNotTemp, hinv.visClosed, hinv.tempNodes, hinv.visNodes⟩,
        rfl, fun x hx => hx, Or.inr ht⟩
    · by_cases hv : node ∈ st.visited
      · have hs : visit g (fuel + 1) st node = st := by
          simp only [visit, if_neg ht, if_pos hv]
        rw [hs]
        exact ⟨hinv, rfl, fun x hx => hx, Or.inl hv⟩
      · have hs : visit g (fuel + 1) st node =
            visitFinish node
              ((alistGet g node).foldl (fun s d => visit g fuel s d)
                { st with temp := node :: st.temp }) := by
          simp only [visit, if_neg ht, if_neg hv]
        have hinv1 : DfsInv g { st with temp := node :: st.temp } := by
          refine ⟨List.nodup_cons.mpr ⟨ht, hinv.tempNodup⟩, hinv.orderNodup,
            hinv.visIffOrder, ?_, ?_, ?_, hinv.visNodes⟩
          · intro x hx hmem
            rcases List.mem_cons.mp hmem with h | h
            · exact hv (h ▸ hx)
            · exact hinv.visNotTemp x hx h
          · intro x hx d hd
            rcases hinv.visClosed x hx d hd with h | h
            · exact Or.inl h
            · exact Or.inr (List.mem_cons_of_mem node h)
          · intro x hx
            rcases List.mem_cons.mp hx with h | h
            · rw [h]; exact hnode
            · exact hinv.tempNodes x h
        have hfuel1 : (depNodes g).length + 1 ≤
            fuel + ({ st with temp := node :: st.temp } : DfsState).temp.length := by
          show (depNodes g).length + 1 ≤ fuel + (node :: st.temp).length
          rw [List.length_cons]
          omega
        obtain ⟨inv2, teq2, mono2, dall2⟩ :=
          visit_fold_spec g fuel ih (alistGet g node)
            { st with temp := node :: st.temp } hinv1
            (fun d hd => mem_alistGet_mem_depNodes g node d hd) hfuel1
        have hnodetemp2 : node ∈
            ((alistGet g node).foldl (fun s d => visit g fuel s d)
              { st with temp := node :: st.temp }).temp := by
          rw [teq2]
          exact List.mem_cons_self node st.temp
        have hnodenvis2 : node ∉
            ((alistGet g node).foldl (fun s d => visit g fuel s d)
              { st with temp := node :: st.temp }).visited :=
          fun hcon => inv2.visNotTemp node hcon hnodetemp2
        have hnodenord2 : node ∉
            ((alistGet g node).foldl (fun s d => visit g fuel s d)
              { st with temp := node :: st.temp }).order :=
          fun hcon => hnodenvis2 ((inv2.visIffOrder node).mpr hcon)
        have herase :
            ((alistGet g node).foldl (fun s d => visit g fuel s d)
              { st with temp := node :: st.temp }).temp.erase node =
              st.temp := by
          rw [teq2]
          exact List.erase_cons_head node st.temp
        have hfin : visitFinish node
            ((alistGet g node).foldl (fun s d => visit g fuel s d)
              { st with temp := node :: st.temp }) =
            ⟨st.temp,
              ((alistGet g node).foldl (fun s d => visit g fuel s d)
                { st with temp := node :: st.temp }).visited ++ [node],
              ((alistGet g node).foldl (fun s d => visit g fuel s d)
                { st with temp := node :: st.temp }).order ++ [node],
              ((alistGet g node).foldl (fun s d => visit g fuel s d)
                { st with temp := node :: st.temp }).warnings⟩ := by
          simp [visitFinish, DfsState.mk.injEq, herase]
        rw [hs, hfin]
        refine ⟨⟨?_, ?_, ?_, ?_, ?_, ?_, ?_⟩, rfl, ?_, ?_⟩
        · exact hinv.tempNodup
        · exact List.nodup_append.mpr ⟨inv2.orderNodup,
            List.nodup_singleton node,
            fun x hx hx2 => hnodenord2 ((List.mem_singleton.mp hx2) ▸ hx)⟩
        · intro x
          exact Iff.intro
            (fun hx => (List.mem_append.mp hx).elim
              (fun h => List.mem_append_left _ ((inv2.visIffOrder x).mp h))
              (fun h => List.mem_append_right _ h))
            (fun hx => (List.mem_append.mp hx).elim
              (fun h => List.mem_append_left _ ((inv2.visIffOrder x).mpr h))
              (fun h => List.mem_append_right _ h))
        · intro x hx hcon
          rcases List.mem_append.mp hx with h | h
          · refine inv2.visNotTemp x h ?_
            rw [teq2]
            exact List.mem_cons_of_mem node hcon
          · exact ht ((List.mem_singleton.mp h) ▸ hcon)
        · intro x hx d hd
          rcases List.mem_append.mp hx with h | h
          · rcases inv2.visClosed x h d hd with h2 | h2
            · exact Or.inl (List.mem_append_left _ h2)
            · rw [teq2] at h2
              rcases List.mem_cons.mp h2 with h3 | h3
              · exact Or.inl (List.mem_append_right _
                  (h3 ▸ List.mem_singleton_self node))
              · exact Or.inr h3
          · have hxnode : x = node := List.mem_singleton.mp h
            subst hxnode
            rcases dall2 d hd with h2 | h2
            · exact Or.inl (List.mem_append_left _ h2)
            · rcases List.mem_cons.mp h2 with h3 | h3
              · exact Or.inl (List.mem_append_right _
                  (h3 ▸ List.mem_singleton_self x))
              · exact Or.inr h3
        · intro x hx
          exact hinv.tempNodes x hx
        · intro x hx
          rcases List.mem_append.mp hx with h | h
          · exact inv2.visNodes x h
          · rw [List.mem_singleton.mp h]
            exact hnode
        · intro x hx
          exact List.mem_append_left _ (mono2 x hx)
        · exact Or.inl (List.mem_append_right _ (List.mem_singleton_self node))

theorem dfsInv_init (g : List (String × List String)) :
    DfsInv g ⟨[], [], [], 0⟩ :=
  ⟨List.nodup_nil, List.nodup_nil, fun _ => Iff.rfl,
    fun x hx => absurd hx (List.not_mem_nil x),
    fun x hx => absurd hx (List.not_mem_nil x),
    fun x hx => absurd hx (List.not_mem_nil x),
    fun x hx => absurd hx (List.not_mem_nil x)⟩

theorem depKeys_subset_depNodes (g : List (String × List String)) :
    ∀ k ∈ depKeys g, k ∈ depNodes g := by
  intro k hk
  rw [depNodes, List.mem_dedup, List.mem_append]
  exact Or.inl hk

theorem alistGet_eq_of_nodup (g : List (String × List String))
    (hk : (depKeys g).Nodup) : ∀ p ∈ g, alistGet g p.1 = p.2 := by
  induction g with
  | nil => intro p hp; exact absurd hp (List.not_mem_nil p)
  | cons q rest ih =>
    intro p hp
    obtain ⟨k0, vs0⟩ := q
    rw [depKeys, List.map_cons, List.nodup_cons] at hk
    rcases List.mem_cons.mp hp with h | h
    · subst h
      simp [alistGet]
    · have hne : k0 ≠ p.1 := by
        intro hcon
        exact hk.1 (hcon ▸ List.mem_map.mpr ⟨p, h, rfl⟩)
      show (if k0 = p.1 then vs0 else alistGet rest p.1) = p.2
      rw [if_neg hne]
      exact ih hk.2 p h

theorem order_fold_spec (g : List (String × List String)) :
    ∀ (ks : List String) (st : DfsState), DfsInv g st →
      (∀ k ∈ ks, k ∈ depNodes g) → st.temp = [] →
      DfsInv g (ks.foldl
        (fun st k => if k ∈ st.visited then st
          else visit g ((depNodes g).length + 1) st k) st) ∧
      (ks.foldl
        (fun st k => if k ∈ st.visited then st
          else visit g ((depNodes g).length + 1) st k) st).temp = [] ∧
      (∀ x ∈ st.visited, x ∈ (ks.foldl
        (fun st k => if k ∈ st.visited then st
          else visit g ((depNodes g).length + 1) st k) st).visited) ∧
      (∀ k ∈ ks, k ∈ (ks.foldl
        (fun st k => if k ∈ st.visited then st
          else visit g ((depNodes g).length + 1) st k) st).visited) := by
  intro ks
  induction ks with
  | nil =>
    intro st h1 _ h3
    exact ⟨h1, h3, fun x hx => hx, fun k hk => absurd hk (List.not_mem_nil k)⟩
  | cons k ks ihks =>
    intro st h1 h2 h3
    simp only [List.foldl_cons]
    by_cases hv : k ∈ st.visited
    · rw [if_pos hv]
      obtain ⟨i1, i2, i3, i4⟩ :=
        ihks st h1 (fun x hx => h2 x (List.mem_cons_of_mem k hx)) h3
      refine ⟨i1, i2, i3, ?_⟩
      intro k0 hk0
      rcases List.mem_cons.mp hk0 with h | h
      · rw [h]
        exact i3 k hv
      · exact i4 k0 h
    · rw [if_neg hv]
      have hfuel : (depNodes g).length + 1 ≤
          ((depNodes g).length + 1) + st.temp.length := by omega
      obtain ⟨inv1, teq1, mono1, kin1⟩ :=
        visit_spec g ((depNodes g).length + 1) st k h1
          (h2 k (List.mem_cons_self k ks)) hfuel
      have h3' : (visit g ((depNodes g).length + 1) st k).temp = [] := by
        rw [teq1]; exact h3
      obtain ⟨i1, i2, i3, i4⟩ :=
        ihks _ inv1 (fun x hx => h2 x (List.mem_cons_of_mem k hx)) h3'
      refine ⟨i1, i2, fun x hx => i3 x (mono1 x hx), ?_⟩
      intro k0 hk0
      rcases List.mem_cons.mp hk0 with h | h
      · rcases kin1 with hvis | htp
        · rw [h]
          exact i3 k hvis
        · rw [h3] at htp
          exact absurd htp (List.not_mem_nil k)
      · exact i4 k0 h

/-- The cyclic two-node example graph of the spec, built through the
mapper's own operations: A depends on B and B depends on A. -/
def cycleG : List (String × List String) :=
  (add_file_dependency id (add_file_dependency id initMapper "A" "B")
    "B" "A").dependencies

/-- C3: on every dependency graph — cyclic ones included — the DFS of
`get_dependency_order` terminates (it is a total function whose fuel the
lemmas show sufficient), raises nothing, and returns every node of the
graph exactly once; on the cyclic graph A→B, B→A it returns both nodes
once and logs exactly one circular-dependency warning. -/
theorem c3_dependency_order_total :
    (∀ g : List (String × List String), (depKeys g).Nodup →
      (get_dependency_order g).order.Nodup ∧
      (∀ n, n ∈ (get_dependency_order g).order ↔ n ∈ depNodes g)) ∧
    (get_dependency_order cycleG).order = ["B", "A"] ∧
    (get_dependency_order cycleG).warnings = 1 := by
  refine ⟨?_, by decide, by decide⟩
  intro g hkeys
  obtain ⟨invF, tempF, monoF, keysF⟩ :=
    order_fold_spec g (depKeys g) ⟨[], [], [], 0⟩ (dfsInv_init g)
      (depKeys_subset_depNodes g) rfl
  refine ⟨invF.orderNodup, ?_⟩
  intro n
  constructor
  · intro hn
    exact invF.visNodes n ((invF.visIffOrder n).mpr hn)
  · intro hn
    refine (invF.visIffOrder n).mp ?_
    rw [depNodes, List.mem_dedup, List.mem_append] at hn
    rcases hn with hn | hn
    · exact keysF n hn
    · obtain ⟨p, hp, hnp⟩ := List.mem_flatMap.mp hn
      have hedge : Edge g p.1 n := by
        rw [Edge, alistGet_eq_of_nodup g hkeys p hp]
        exact hnp
      have hp1 := keysF p.1 (List.mem_map.mpr ⟨p, hp, rfl⟩)
      rcases invF.visClosed p.1 hp1 n hedge with h | h
      · exact h
      · rw [tempF] at h
        exact absurd h (List.not_mem_nil n)

theorem c3_dependency_order_total_witness :
    (depKeys cycleG).Nodup ∧
    (∀ n, n ∈ (get_dependency_order cycleG).order ↔ n ∈ depNodes cycleG) :=
  ⟨by decide, (c3_dependency_order_total.1 cycleG (by decide)).2⟩

/-! ## Topological ordering on acyclic graphs (claim C2) -/

/-- A dependency graph is acyclic when no node reaches itself through a
nonempty chain of edges. -/
def Acyclic (g : List (String × List String)) : Prop :=
  ∀ a, ¬ Relation.TransGen (Edge g) a a

/-- `temp_mark`, newest first, is the DFS stack: each entry has an edge to
the entry pushed right after it. -/
def TempChain (g : List (String × List String)) (temp : List String) : Prop :=
  List.Chain' (fun a b => Edge g b a) temp

/-- Every finished node lists all its dependencies strictly before itself
in `order`. -/
def OrderClosed (g : List (String × List String)) (L : List String) : Prop :=
  ∀ p x s, L = p ++ x :: s → ∀ d, Edge g x d → d ∈ p

theorem tempChain_reaches (g : List (String × List String)) :
    ∀ (t : List String) (h x : String), TempChain g (h :: t) → x ∈ t →
      Relation.TransGen (Edge g) x h := by
  intro t
  induction t with
  | nil => intro h x _ hx; exact absurd hx (List.not_mem_nil x)
  | cons a t ih =>
    intro h x hch hx
    have hedge : Edge g a h := (List.chain'_cons.mp hch).1
    have hch' : TempChain g (a :: t) := (List.chain'_cons.mp hch).2
    rcases List.mem_cons.mp hx with hxa | hxt
    · rw [hxa]
      exact Relation.TransGen.single hedge
    · exact (ih a x hch' hxt).tail hedge

theorem append_singleton_decomp {α : Type} {L p s : List α} {y x : α}
    (h : L ++ [y] = p ++ x :: s) :
    (p = L ∧ x = y ∧ s = []) ∨ ∃ s', L = p ++ x :: s' ∧ s = s' ++ [y] := by
  rcases List.append_eq_append_iff.mp h with ⟨a', ha1, ha2⟩ | ⟨c', hc1, hc2⟩
  · cases a' with
    | nil =>
      rw [List.append_nil] at ha1
      simp only [List.nil_append] at ha2
      injection ha2 with h1 h2
      exact Or.inl ⟨ha1, h1.symm, h2.symm⟩
    | cons b bs =>
      rw [List.cons_append] at ha2
      injection ha2 with h1 h2
      exact absurd h2.symm (by simp)
  · cases c' with
    | nil =>
      rw [List.append_nil] at hc1
      simp only [List.nil_append] at hc2
      injection hc2 with h1 h2
      exact Or.inl ⟨hc1.symm, h1, h2⟩
    | cons b bs =>
      rw [List.cons_append] at hc2
      injection hc2 with h1 h2
      exact Or.inr ⟨bs, by rw [hc1, h1], h2⟩

theorem visit_fold_order_closed (g : List (String × List String))
    (fuel : Nat)
    (ih : ∀ st node, DfsInv g st → TempChain g st.temp →
      OrderClosed g st.order → node ∈ depNodes g →
      (∀ h t, st.temp = h :: t → Edge g h node) →
      (depNodes g).length + 1 ≤ fuel + st.temp.length →
      OrderClosed g (visit g fuel st node).order) :
    ∀ (ds : List String) (st : DfsState), DfsInv g st → TempChain g st.temp →
      OrderClosed g st.order → (∀ d ∈ ds, d ∈ depNodes g) →
      (∀ d ∈ ds, ∀ h t, st.temp = h :: t → Edge g h d) →
      (depNodes g).length + 1 ≤ fuel + st.temp.length →
      OrderClosed g (ds.foldl (fun s d => visit g fuel s d) st).order := by
  intro ds
  induction ds with
  | nil => intro st _ _ hO _ _ _; exact hO
  | cons d ds ihds =>
    intro st hI hC hO hds hlinks hfuel
    simp only [List.foldl_cons]
    obtain ⟨inv1, teq1, _, _⟩ :=
      visit_spec g fuel st d hI (hds d (List.mem_cons_self d ds)) hfuel
    have hO1 : OrderClosed g (visit g fuel st d).order :=
      ih st d hI hC hO (hds d (List.mem_cons_self d ds))
        (hlinks d (List.mem_cons_self d ds)) hfuel
    have hC1 : TempChain g (visit g fuel st d).temp := by
      rw [teq1]; exact hC
    have hlinks' : ∀ d0 ∈ ds, ∀ h t,
        (visit g fuel st d).temp = h :: t → Edge g h d0 := by
      intro d0 hd0 h t hteq
      rw [teq1] at hteq
      exact hlinks d0 (List.mem_cons_of_mem d hd0) h t hteq
    have hfuel' : (depNodes g).length + 1 ≤
        fuel + (visit g fuel st d).temp.length := by
      rw [teq1]; exact hfuel
    exact ihds (visit g fuel st d) inv1 hC1 hO1
      (fun x hx => hds x (List.mem_cons_of_mem d hx)) hlinks' hfuel'

theorem visit_order_closed (g : List (String × List String))
    (hac : Acyclic g) :
    ∀ (fuel : Nat) (st : DfsState) (node : String), DfsInv g st →
      TempChain g st.temp → OrderClosed g st.order → node ∈ depNodes g →
      (∀ h t, st.temp = h :: t → Edge g h node) →
      (depNodes g).length + 1 ≤ fuel + st.temp.length →
      OrderClosed g (visit g fuel st node).order := by
  intro fuel
  induction fuel with
  | zero => intro st node _ _ hO _ _ _; exact hO
  | succ fuel ih =>
    intro st node hI hC hO hnode hlink hfuel
    by_cases ht : node ∈ st.temp
    · have hs : visit g (fuel + 1) st node =
          { st with warnings := st.warnings + 1 } := by
        simp only [visit, if_pos ht]
      rw [hs]
      exact hO
    · by_cases hv : node ∈ st.visited
      · have hs : visit g (fuel + 1) st node = st := by
          simp only [visit, if_neg ht, if_pos hv]
        rw [hs]
        exact hO
      · have hs : visit g (fuel + 1) st node =
            visitFinish node
              ((alistGet g node).foldl (fun s d => visit g fuel s d)
                { st with temp := node :: st.temp }) := by
          simp only [visit, if_neg ht, if_neg hv]
        have hI1 : DfsInv g { st with temp := node :: st.temp } := by
          refine ⟨List.nodup_cons.mpr ⟨ht, hI.tempNodup⟩, hI.orderNodup,
            hI.visIffOrder, ?_, ?_, ?_, hI.visNodes⟩
          · intro x hx hmem
            rcases List.mem_cons.mp hmem with h | h
            · exact hv (h ▸ hx)
            · exact hI.visNotTemp x hx h
          · intro x hx d hd
            rcases hI.visClosed x hx d hd with h | h
            · exact Or.inl h
            · exact Or.inr (List.mem_cons_of_mem node h)
          · intro x hx
            rcases List.mem_cons.mp hx with h | h
            · rw [h]; exact hnode
            · exact hI.tempNodes x h
        have hC1 : TempChain g
            ({ st with temp := node :: st.temp } : DfsState).temp := by
          show List.Chain' (fun a b => Edge g b a) (node :: st.temp)
          cases htemp : st.temp with
          | nil => exact List.chain'_singleton node
          | cons h t =>
            rw [List.chain'_cons]
            refine ⟨hlink h t htemp, ?_⟩
            rw [← htemp]
            exact hC
        have hfuel1 : (depNodes g).length + 1 ≤
            fuel + ({ st with temp := node :: st.temp } : DfsState).temp.length := by
          show (depNodes g).length + 1 ≤ fuel + (node :: st.temp).length
          rw [List.length_cons]
          omega
        have hds : ∀ d ∈ alistGet g node, d ∈ depNodes g :=
          fun d hd => mem_alistGet_mem_depNodes g node d hd
        have hlinkds : ∀ d ∈ alistGet g node, ∀ h t,
            ({ st with temp := node :: st.temp } : DfsState).temp = h :: t →
              Edge g h d := by
          intro d hd h t hteq
          have hh : h = node := by
            have := hteq
            injection this with h1 _
            exact h1.symm
          rw [hh]
          exact hd
        obtain ⟨inv2, teq2, _, dall2⟩ :=
          visit_fold_spec g fuel (visit_spec g fuel) (alistGet g node)
            { st with temp := node :: st.temp } hI1 hds hfuel1
        have hO2 : OrderClosed g
            ((alistGet g node).foldl (fun s d => visit g fuel s d)
              { st with temp := node :: st.temp }).order :=
          visit_fold_order_closed g fuel ih (alistGet g node)
            { st with temp := node :: st.temp } hI1 hC1 hO hds hlinkds hfuel1
        rw [hs]
        intro p x s heq d hd
        have heq' : ((alistGet g node).foldl (fun s d => visit g fuel s d)
            { st with temp := node :: st.temp }).order ++ [node] =
            p ++ x :: s := heq
        rcases append_singleton_decomp heq' with ⟨hp, hx, -⟩ | ⟨s', hL, -⟩
        · rw [hx] at hd
          rcases dall2 d hd with hvis | htp
          · rw [hp]
            exact (inv2.visIffOrder d).mp hvis
          · exfalso
            rcases List.mem_cons.mp htp with hdn | hdst
            · exact hac node (Relation.TransGen.single (hdn ▸ hd))
            · have hreach := tempChain_reaches g st.temp node d hC1 hdst
              exact hac d (hreach.tail hd)
        · exact hO2 p x s' hL d hd

theorem order_fold_closed (g : List (String × List String))
    (hac : Acyclic g) :
    ∀ (ks : List String) (st : DfsState), DfsInv g st →
      OrderClosed g st.order → st.temp = [] →
      (∀ k ∈ ks, k ∈ depNodes g) →
      DfsInv g (ks.foldl
        (fun st k => if k ∈ st.visited then st
          else visit g ((depNodes g).length + 1) st k) st) ∧
      (ks.foldl
        (fun st k => if k ∈ st.visited then st
          else visit g ((depNodes g).length + 1) st k) st).temp = [] ∧
      OrderClosed g (ks.foldl
        (fun st k => if k ∈ st.visited then st
          else visit g ((depNodes g).length + 1) st k) st).order := by
  intro ks
  induction ks with
  | nil => intro st hI hO htemp _; exact ⟨hI, htemp, hO⟩
  | cons k ks ihks =>
    intro st hI hO htemp hks
    simp only [List.foldl_cons]
    by_cases hv : k ∈ st.visited
    · rw [if_pos hv]
      exact ihks st hI hO htemp (fun x hx => hks x (List.mem_cons_of_mem k hx))
    · rw [if_neg hv]
      have hfuel : (depNodes g).length + 1 ≤
          ((depNodes g).length + 1) + st.temp.length := by omega
      obtain ⟨inv1, teq1, _, _⟩ :=
        visit_spec g ((depNodes g).length + 1) st k hI
          (hks k (List.mem_cons_self k ks)) hfuel
      have hC : TempChain g st.temp := by
        rw [htemp]
        exact List.chain'_nil
      have hlink : ∀ h t, st.temp = h :: t → Edge g h k := by
        intro h t hcon
        rw [htemp] at hcon
        exact absurd hcon (by simp)
      have hO1 : OrderClosed g
          (visit g ((depNodes g).length + 1) st k).order :=
        visit_order_closed g hac ((depNodes g).length + 1) st k hI hC hO
          (hks k (List.mem_cons_self k ks)) hlink hfuel
      have htemp1 : (visit g ((depNodes g).length + 1) st k).temp = [] := by
        rw [teq1]; exact htemp
      exact ihks _ inv1 hO1 htemp1
        (fun x hx => hks x (List.mem_cons_of_mem k hx))

/-- The acyclic three-node example graph of the spec, built through the
mapper's own operations: A depends on B and B depends on C. -/
def chainG : List (String × List String) :=
  (add_file_dependency id (add_file_dependency id initMapper "A" "B")
    "B" "C").dependencies

/-- A witness ranking for the acyclicity of `chainG`. -/
def rankABC (s : String) : Nat := if s = "A" then 2 else if s = "B" then 1 else 0

theorem chainG_edge_rank (a b : String) (h : Edge chainG a b) :
    rankABC b < rankABC a := by
  have hget : alistGet chainG a =
      if "A" = a then ["B"] else if "B" = a then ["C"] else [] := rfl
  rw [Edge, hget] at h
  split_ifs at h with h1 h2
  · rw [← h1, List.mem_singleton.mp h]
    decide
  · rw [← h2, List.mem_singleton.mp h]
    decide
  · exact absurd h (List.not_mem_nil b)

theorem chainG_rank_trans (x y : String)
    (h : Relation.TransGen (Edge chainG) x y) : rankABC y < rankABC x := by
  induction h with
  | single h1 => exact chainG_edge_rank _ _ h1
  | tail _ h2 ih => exact lt_trans (chainG_edge_rank _ _ h2) ih

theorem chainG_acyclic : Acyclic chainG :=
  fun a h => absurd (chainG_rank_trans a a h) (lt_irrefl _)

/-- C2: on every acyclic dependency graph, `get_dependency_order` lists
every file strictly after all files it depends on (every element's
dependencies appear in the strict prefix before it); in particular, after
`add_file_dependency("A", "B")` and `add_file_dependency("B", "C")` the
returned order is C, then B, then A. -/
theorem c2_topological_order :
    (∀ g : List (String × List String), Acyclic g →
      ∀ p x s, (get_dependency_order g).order = p ++ x :: s →
        ∀ d, Edge g x d → d ∈ p) ∧
    (get_dependency_order chainG).order = ["C", "B", "A"] := by
  refine ⟨?_, by decide⟩
  intro g hac p x s heq d hd
  obtain ⟨_, _, hO⟩ :=
    order_fold_closed g hac (depKeys g) ⟨[], [], [], 0⟩ (dfsInv_init g)
      (fun p0 x0 s0 h0 => absurd h0.symm (by simp)) rfl
      (depKeys_subset_depNodes g)
  exact hO p x s heq d hd

theorem c2_topological_order_witness :
    Acyclic chainG ∧ ("B" : String) ∈ (["C", "B"] : List String) :=
  ⟨chainG_acyclic,
    c2_topological_order.1 chainG chainG_acyclic ["C", "B"] "A" []
      (by decide) "B" (by unfold Edge; decide)⟩
